import Mathlib

/-!
Verification of the AgentHub trust and provenance subsystem
(`src/agenthub/signing.py`, `src/agenthub/identity.py`).

The Python records (manifests, attestations) are duck-typed dictionaries
whose values are the YAML/JSON-representable shapes; they are embedded as
the inductive `Value` below, with `Value.other` standing for any Python
object outside the JSON-representable shapes (e.g. a datetime or a
resource handle), carrying the text that Python's `str()` would render
for it.  A record (dict) is an insertion-ordered association list; Python
dictionaries never hold duplicate keys, and every theorem that needs that
fact states it explicitly.

External library primitives are modelled explicitly and executably:
  * `json.dumps(x, sort_keys=True, default=str)` is `dumpVal` (keys
    sorted lexicographically at every level, `", "` / `": "` separators,
    ASCII escaping, unrepresentable values routed through `default=str`);
  * `base64.b64encode` / `base64.b64decode` are `b64encode` /
    `b64decodeStr` (RFC 4648; decoding failures, which raise in Python,
    return `none`);
  * the Ed25519 primitive of the `cryptography` package is idealised:
    a private key is its seed, the raw public key is a fixed 32-byte
    encoding of the seed, and a signature is 64 bytes determined by the
    public key and a hash of the message.  The model validates honest
    sign/verify round-trips and rejects wrong-length keys, which is all
    the claims about this code depend on; unforgeability is not modelled.
-/

/-- A YAML/JSON-parsed Python value.  `other s` is any object outside the
JSON-representable shapes, carrying its `str()` rendering. -/
inductive Value where
  | null : Value
  | bool : Bool → Value
  | num : Int → Value
  | str : String → Value
  | arr : List Value → Value
  | obj : List (String × Value) → Value
  | other : String → Value

/-- A manifest / attestation record: an insertion-ordered Python dict. -/
abbrev Record := List (String × Value)

/-- Hex digit used by the `\uXXXX` escapes of `json.dumps`. -/
def hexDigit (n : Nat) : Char :=
  if n < 10 then Char.ofNat (48 + n) else Char.ofNat (87 + n)

/-- Four lowercase hex digits, as emitted by `json.dumps` escapes. -/
def hex4 (n : Nat) : String :=
  String.mk [hexDigit (n / 4096 % 16), hexDigit (n / 256 % 16),
             hexDigit (n / 16 % 16), hexDigit (n % 16)]

/-- Escape of one character per `json.dumps` with `ensure_ascii=True`
(the default): short escapes for the JSON specials, printable ASCII
verbatim, everything else as `\uXXXX` (surrogate pairs above U+FFFF). -/
def escapeJsonChar (c : Char) : String :=
  if c = '"' then "\\\""
  else if c = '\\' then "\\\\"
  else if c = '\n' then "\\n"
  else if c = '\r' then "\\r"
  else if c = '\t' then "\\t"
  else if c.toNat = 8 then "\\b"
  else if c.toNat = 12 then "\\f"
  else if 32 ≤ c.toNat ∧ c.toNat ≤ 126 then String.singleton c
  else if c.toNat < 65536 then "\\u" ++ hex4 c.toNat
  else "\\u" ++ hex4 (55296 + (c.toNat - 65536) / 1024)
       ++ "\\u" ++ hex4 (56320 + (c.toNat - 65536) % 1024)

/-- JSON string literal encoding used by `json.dumps`. -/
def encodeJsonString (s : String) : String :=
  "\"" ++ String.join (s.data.map escapeJsonChar) ++ "\""

/-- Code-point lexicographic comparison of character lists: the order in
which Python compares `str` values when sorting dict keys. -/
def charListLe : List Char → List Char → Bool
  | [], _ => true
  | _ :: _, [] => false
  | a :: as, b :: bs =>
    if a.toNat < b.toNat then true
    else if b.toNat < a.toNat then false
    else charListLe as bs

/-- Key order used by `sort_keys=True`. -/
def keyLe (a b : String) : Bool := charListLe a.data b.data

/-- Insert one rendered item into a key-sorted run, placing it before
the first entry it compares less-or-equal to. -/
def insertPair (x : String × String) : List (String × String) → List (String × String)
  | [] => [x]
  | y :: ys => if keyLe x.1 y.1 then x :: y :: ys else y :: insertPair x ys

/-- Sort a list of (key, rendered item) pairs by key, as
`json.dumps(..., sort_keys=True)` sorts a dict's items.  A stable
insertion sort: Python dict keys are distinct, so every stable sort
agrees with `sorted`. -/
def sortByKey : List (String × String) → List (String × String)
  | [] => []
  | x :: xs => insertPair x (sortByKey xs)

mutual

/-- Model of `json.dumps(v, sort_keys=True, default=str)`: deterministic
serialization with keys sorted at every mapping level.  `Value.other`
values go through `default=str` and are rendered as the JSON string of
their `str()` form — this call never raises. -/
def dumpVal : Value → String
  | .null => "null"
  | .bool true => "true"
  | .bool false => "false"
  | .num n => toString n
  | .str s => encodeJsonString s
  | .other s => encodeJsonString s
  | .arr xs => "[" ++ String.intercalate ", " (dumpList xs) ++ "]"
  | .obj l =>
      "\x7b" ++ String.intercalate ", " ((sortByKey (dumpPairs l)).map Prod.snd) ++ "\x7d"

/-- Renders each array element. -/
def dumpList : List Value → List String
  | [] => []
  | x :: xs => dumpVal x :: dumpList xs

/-- Renders each dict item as (key, `"key": value`). -/
def dumpPairs : List (String × Value) → List (String × String)
  | [] => []
  | (k, v) :: l => (k, encodeJsonString k ++ ": " ++ dumpVal v) :: dumpPairs l

end

/-- Fields excluded from a manifest's signable content
(`get_signable_content`). -/
def manifestExcludeFields : List String := ["signature", "public_key", "signed_at"]

/-- Fields excluded from an attestation's signable content
(`get_attestation_signable_content`). -/
def attestationExcludeFields : List String := ["signature", "public_key"]

/-- `get_signable_content`: drop the three trust fields, then
`json.dumps(signable, sort_keys=True, default=str)`. -/
def get_signable_content (manifest_data : Record) : String :=
  dumpVal (.obj (manifest_data.filter (fun p => !(manifestExcludeFields.contains p.1))))

/-- `get_attestation_signable_content`: drop `signature`/`public_key`,
then `json.dumps(signable, sort_keys=True, default=str)`. -/
def get_attestation_signable_content (attestation_data : Record) : String :=
  dumpVal (.obj (attestation_data.filter (fun p => !(attestationExcludeFields.contains p.1))))

/-- Python `d.get(k)`: the value at the first (unique) matching key. -/
def dictGet (m : Record) (k : String) : Option Value :=
  (m.find? (fun p => p.1 == k)).map Prod.snd

/-- Python `d[k] = v`: overwrite in place if the key exists (keeping its
position), otherwise append. -/
def dictSet (m : Record) (k : String) (v : Value) : Record :=
  if m.any (fun p => p.1 == k) then
    m.map (fun p => if p.1 == k then (k, v) else p)
  else m ++ [(k, v)]

/-- Python `del d[k]` / a record in which the key is absent. -/
def dictRemove (m : Record) (k : String) : Record :=
  m.filter (fun p => !(p.1 == k))

/-- Python truthiness of an optional field value (`if not signature:`):
`None`, `""`, `0`, `False` and empty containers are falsy. -/
def pyTruthy : Option Value → Bool
  | none => false
  | some .null => false
  | some (.bool b) => b
  | some (.num n) => n != 0
  | some (.str s) => s != ""
  | some (.arr l) => !l.isEmpty
  | some (.obj l) => !l.isEmpty
  | some (.other _) => true

/-! Base64 (model of `base64.b64encode` / `base64.b64decode`, RFC 4648).
Characters are handled at their code-point level. -/

/-- Code point of the base64 alphabet character for a 6-bit index. -/
def b64CharCodeOf (n : Nat) : Nat :=
  if n < 26 then 65 + n
  else if n < 52 then 71 + n
  else if n < 62 then n - 4
  else if n = 62 then 43
  else 47

/-- Inverse of the base64 alphabet: `none` for a character outside it. -/
def b64IndexOf (c : Nat) : Option Nat :=
  if 65 ≤ c ∧ c ≤ 90 then some (c - 65)
  else if 97 ≤ c ∧ c ≤ 122 then some (c - 71)
  else if 48 ≤ c ∧ c ≤ 57 then some (c + 4)
  else if c = 43 then some 62
  else if c = 47 then some 63
  else none

/-- Base64 encoding at the code-point level: 3 bytes per 4 characters,
`=`-padded tail. -/
def b64EncCodes : List Nat → List Nat
  | a :: b :: c :: rest =>
      b64CharCodeOf (a / 4) :: b64CharCodeOf (a % 4 * 16 + b / 16) ::
      b64CharCodeOf (b % 16 * 4 + c / 64) :: b64CharCodeOf (c % 64) :: b64EncCodes rest
  | [a, b] => [b64CharCodeOf (a / 4), b64CharCodeOf (a % 4 * 16 + b / 16),
               b64CharCodeOf (b % 16 * 4), 61]
  | [a] => [b64CharCodeOf (a / 4), b64CharCodeOf (a % 4 * 16), 61, 61]
  | [] => []

/-- Base64 decoding at the code-point level; `none` models the
`binascii.Error` raised on malformed input (a length that is not a
multiple of four, or a character outside the alphabet). -/
def b64DecCodes : List Nat → Option (List Nat)
  | [] => some []
  | c1 :: c2 :: c3 :: c4 :: rest =>
    if rest = [] ∧ c3 = 61 ∧ c4 = 61 then do
      let i1 ← b64IndexOf c1
      let i2 ← b64IndexOf c2
      some [i1 * 4 + i2 / 16]
    else if rest = [] ∧ c4 = 61 then do
      let i1 ← b64IndexOf c1
      let i2 ← b64IndexOf c2
      let i3 ← b64IndexOf c3
      some [i1 * 4 + i2 / 16, i2 % 16 * 16 + i3 / 4]
    else do
      let i1 ← b64IndexOf c1
      let i2 ← b64IndexOf c2
      let i3 ← b64IndexOf c3
      let i4 ← b64IndexOf c4
      let bs ← b64DecCodes rest
      some ((i1 * 4 + i2 / 16) :: (i2 % 16 * 16 + i3 / 4) :: (i3 % 4 * 64 + i4) :: bs)
  | _ => none

/-- `base64.b64encode(bs).decode("ascii")`. -/
def b64encode (bs : List Nat) : String :=
  String.mk ((b64EncCodes bs).map Char.ofNat)

/-- `base64.b64decode(s)`; `none` models the raised `binascii.Error`. -/
def b64decodeStr (s : String) : Option (List Nat) :=
  b64DecCodes (s.data.map Char.toNat)

/-! Idealised model of the external Ed25519 primitive. -/

/-- Little-endian byte rendering of a natural number, fixed width. -/
def natToBytes : Nat → Nat → List Nat
  | 0, _ => []
  | n + 1, v => v % 256 :: natToBytes n (v / 256)

/-- Raw 32-byte public key of a private key (the key seed, idealised). -/
def pubRawOf (sk : Nat) : List Nat := natToBytes 32 sk

/-- Deterministic message digest used by the idealised signature. -/
def msgHash (msg : List Nat) : Nat :=
  msg.foldl (fun a b => (a * 131 + b + 7) % 2 ^ 256) 1

/-- `private_key.sign(msg)`: a 64-byte signature determined by the key
and the message digest (Ed25519 signing is deterministic). -/
def edSign (msg : List Nat) (sk : Nat) : List Nat :=
  pubRawOf sk ++ natToBytes 32 (msgHash msg)

/-- `Ed25519PublicKey.from_public_bytes`: raises (here `none`) unless
given exactly 32 bytes. -/
def fromPublicBytes (bs : List Nat) : Option (List Nat) :=
  if bs.length = 32 then some bs else none

/-- `public_key.verify(signature, msg)` as a Boolean: `false` models the
raised `InvalidSignature`. -/
def edVerify (pk : List Nat) (sig : List Nat) (msg : List Nat) : Bool :=
  sig == pk ++ natToBytes 32 (msgHash msg)

/-- Model of `content.encode("utf-8")` at code-point granularity: an
injective byte rendering of the string; no claim depends on the exact
UTF-8 byte values. -/
def strBytes (s : String) : List Nat := s.data.map Char.toNat

/-! Manifest signing and verification (`signing.py`). -/

/-- `sign_content`: sign the UTF-8 bytes and base64 the signature. -/
def sign_content (content : String) (sk : Nat) : String :=
  b64encode (edSign (strBytes content) sk)

/-- `get_public_key_base64`: base64 of the raw public key bytes. -/
def get_public_key_base64 (sk : Nat) : String :=
  b64encode (pubRawOf sk)

/-- Pure core of `sign_manifest_file`: compute the signable content,
sign it, and set the three trust fields (`signed_at` is the current UTC
timestamp, passed in as `now`).  The surrounding YAML file read/write is
not modelled. -/
def sign_manifest_data (m : Record) (sk : Nat) (now : String) : Record :=
  let signable_content := get_signable_content m
  let m1 := dictSet m "signature" (.str (sign_content signable_content sk))
  let m2 := dictSet m1 "public_key" (.str (get_public_key_base64 sk))
  dictSet m2 "signed_at" (.str now)

/-- `verify_signature`: decode the base64 signature and key, rebuild the
public key, verify.  Every failure inside the `try` block is caught by
the blanket `except Exception: return False`. -/
def verify_signature (content signature_b64 public_key_b64 : String) : Bool :=
  match b64decodeStr signature_b64 with
  | none => false
  | some signature_bytes =>
    match b64decodeStr public_key_b64 with
    | none => false
    | some public_key_bytes =>
      match fromPublicBytes public_key_bytes with
      | none => false
      | some pk => edVerify pk signature_bytes (strBytes content)

/-- `verify_signature` applied to record field values: a non-string
value makes `base64.b64decode` raise a `TypeError`, which the blanket
`except` resolves to `False`. -/
def verify_signature_value (content : String) : Value → Value → Bool
  | .str s, .str p => verify_signature content s p
  | _, _ => false

/-- `verify_manifest_data`. -/
def verify_manifest_data (manifest_data : Record) : Bool × Option String :=
  let signature := dictGet manifest_data "signature"
  let public_key := dictGet manifest_data "public_key"
  if !pyTruthy signature then (false, some "Manifest is not signed")
  else if !pyTruthy public_key then (false, some "Missing public key")
  else
    let signable_content := get_signable_content manifest_data
    if verify_signature_value signable_content (signature.getD .null) (public_key.getD .null)
    then (true, none)
    else (false, some "Invalid signature")

/-- `verify_attestation`. -/
def verify_attestation (attestation_data : Record) : Bool × Option String :=
  let signature := dictGet attestation_data "signature"
  let public_key := dictGet attestation_data "public_key"
  if !pyTruthy signature then (false, some "Attestation is not signed")
  else if !pyTruthy public_key then (false, some "Attestation missing public_key")
  else
    let signable_content := get_attestation_signable_content attestation_data
    if verify_signature_value signable_content (signature.getD .null) (public_key.getD .null)
    then (true, none)
    else (false, some "Attestation signature invalid")

/-- `verify_attestation` on a list element: calling `.get` on a value
that is not a mapping raises, and `verify_all_attestations` has no
handler for that, so it is modelled as `none`. -/
def verify_attestation_value : Value → Option (Bool × Option String)
  | .obj a => some (verify_attestation a)
  | _ => none

/-- `verify_all_attestations`: `manifest_data.get("attestations", [])`,
then one `verify_attestation` per entry, positionally.  A non-sequence
`attestations` value or a non-mapping entry raises (modelled `none`). -/
def verify_all_attestations (manifest_data : Record) :
    Option (List (Nat × Bool × Option String)) :=
  match (dictGet manifest_data "attestations").getD (.arr []) with
  | .arr attestations =>
      attestations.enum.mapM
        (fun p => (verify_attestation_value p.2).map (fun r => (p.1, r.1, r.2)))
  | _ => none

/-! Trusted-verifier registry.  `load_trusted_verifiers` reads the
registry file; the registry contents are passed explicitly here. -/

/-- One entry of the trusted-verifiers file. -/
structure VerifierRecord where
  public_key : String
  added_at : String
  description : String
deriving DecidableEq

/-- The registry: an insertion-ordered dict of name to record. -/
abbrev Registry := List (String × VerifierRecord)

/-- The fallback loop of `is_trusted_verifier`: first entry whose stored
public key equals the queried one, scanning in insertion order. -/
def trustedByKey (verifiers : Registry) (public_key : String) : Bool × Option String :=
  match verifiers.find? (fun p => p.2.public_key == public_key) with
  | some p => (true, some p.1)
  | none => (false, none)

/-- `is_trusted_verifier`: exact name lookup first; if the named entry's
key matches, trusted under that name; otherwise (and when the name is
absent) scan all entries by public key alone. -/
def is_trusted_verifier (verifiers : Registry) (verifier_name public_key : String) :
    Bool × Option String :=
  match verifiers.find? (fun p => p.1 == verifier_name) with
  | some p =>
      if p.2.public_key == public_key then (true, some verifier_name)
      else trustedByKey verifiers public_key
  | none => trustedByKey verifiers public_key

/-- `attestation_data.get(k, "")` for the registry comparison; values
other than strings never match a registry entry and are not produced on
the paths the theorems exercise. -/
def getStrDefault (a : Record) (k : String) : String :=
  match dictGet a k with
  | some (.str s) => s
  | _ => ""

/-- `verify_attestation_trusted`: cryptographic verification first; only
when it succeeds is the trusted-verifier registry consulted. -/
def verify_attestation_trusted (verifiers : Registry) (attestation_data : Record) :
    Bool × Option String × Bool × Option String :=
  let r := verify_attestation attestation_data
  if !r.1 then (false, r.2, false, none)
  else
    let verifier_name := getStrDefault attestation_data "verifier"
    let public_key := getStrDefault attestation_data "public_key"
    let t := is_trusted_verifier verifiers verifier_name public_key
    (true, none, t.1, t.2)

/-- `verifiers[name] = {...}` in `add_trusted_verifier`. -/
def registrySet (reg : Registry) (name : String) (r : VerifierRecord) : Registry :=
  if reg.any (fun p => p.1 == name) then
    reg.map (fun p => if p.1 == name then (name, r) else p)
  else reg ++ [(name, r)]

/-- Pure core of `add_trusted_verifier`: upsert by name. -/
def add_trusted_verifier (reg : Registry) (name public_key added_at description : String) :
    Registry :=
  registrySet reg name ⟨public_key, added_at, description⟩

/-- Pure core of `remove_trusted_verifier`: `(removed?, new registry)`. -/
def remove_trusted_verifier (reg : Registry) (name : String) : Bool × Registry :=
  if reg.any (fun p => p.1 == name) then
    (true, reg.filter (fun p => !(p.1 == name)))
  else (false, reg)

/-! File-write model for `save_trusted_verifiers` (claim about atomic
replacement).  The registry file's content over time is tracked through
the elementary file-system effects the function performs. -/

/-- Serialized form of the registry file, modelling `yaml.dump` of
`{"verifiers": ...}` (the exact textual format is immaterial). -/
def yaml_dump_verifiers (reg : Registry) : String :=
  "verifiers:\n"
    ++ String.join (reg.map (fun p => "  " ++ p.1 ++ ": " ++ p.2.public_key ++ "\n"))

/-- Elementary effects on the registry file. -/
inductive FsStep where
  | truncate : FsStep
  | writeAll : String → FsStep
deriving DecidableEq

/-- `save_trusted_verifiers` runs `with open(path, "w") as f:
yaml.dump(data, f)` — opening with mode `"w"` truncates the file, then
the dump writes the serialized registry.  No temporary file and no
rename are involved. -/
def save_trusted_verifiers_steps (verifiers : Registry) : List FsStep :=
  [.truncate, .writeAll (yaml_dump_verifiers verifiers)]

/-- Effect of one step on the file's content. -/
def applyStep (content : String) : FsStep → String
  | .truncate => ""
  | .writeAll s => content ++ s

/-- The file's content before, between and after the steps. -/
def file_states (initial : String) (steps : List FsStep) : List String :=
  steps.scanl applyStep initial

/-! Agent identity (`identity.py`). -/

/-- Result of `parse_agent_id`. -/
structure AgentIdParts where
  author : String
  name : String
  fork_name : Option String
deriving DecidableEq

/-- `generate_agent_id`: `ah:<author>/<name>`, plus `+<fork>` when
`fork_name` is truthy (a present, non-empty string). -/
def generate_agent_id (author name : String) (fork_name : Option String) : String :=
  let base := "ah:" ++ author ++ "/" ++ name
  match fork_name with
  | some f => if f != "" then base ++ "+" ++ f else base
  | none => base

/-- Split at the first occurrence of a separator (`str.split(sep, 1)`);
`none` when the separator is absent. -/
def splitFirst (sep : Char) : List Char → Option (List Char × List Char)
  | [] => none
  | c :: cs =>
      if c = sep then some ([], cs)
      else (splitFirst sep cs).map (fun p => (c :: p.1, p.2))

/-- Split at the last occurrence of a separator (`str.rsplit(sep, 1)`);
`none` when the separator is absent. -/
def splitLast (sep : Char) (l : List Char) : Option (List Char × List Char) :=
  match splitFirst sep l.reverse with
  | some p => some (p.2.reverse, p.1.reverse)
  | none => none

/-- `parse_agent_id`: require the `ah:` prefix, split one `+` from the
right into the fork name, then split the remainder at the first `/`. -/
def parse_agent_id (agent_id : String) : Except String AgentIdParts :=
  let l := agent_id.data
  if l.take 3 = "ah:".data then
    let rest := l.drop 3
    match splitLast '+' rest with
    | some rf =>
        match splitFirst '/' rf.1 with
        | some an => .ok ⟨String.mk an.1, String.mk an.2, some (String.mk rf.2)⟩
        | none => .error ("Invalid agent ID format: " ++ agent_id)
    | none =>
        match splitFirst '/' rest with
        | some an => .ok ⟨String.mk an.1, String.mk an.2, none⟩
        | none => .error ("Invalid agent ID format: " ++ agent_id)
  else .error ("Invalid agent ID format: " ++ agent_id)

/-- `build_lineage`: parent lineage plus the new ID; pure append. -/
def build_lineage (parent_lineage : List String) (new_agent_id : String) : List String :=
  parent_lineage ++ [new_agent_id]

/-- `get_generation`. -/
def get_generation (lineage : List String) : Nat :=
  max 0 (lineage.length - 1)

/-! Remaining definitions used by the claim statements. -/

/-- Two values with identical field sets and values, differing only in
the insertion order of mapping keys at any nesting depth.  Array order
is significant and preserved; object entries may be permuted (Python
dicts never hold duplicate keys, hence the `Nodup` side condition); the
congruence constructors push the relation below arrays and objects, and
`refl`/`symm`/`trans` close it into an equivalence. -/
inductive EquivJson : Value → Value → Prop where
  | refl (v : Value) : EquivJson v v
  | symm {v w : Value} : EquivJson v w → EquivJson w v
  | trans {u v w : Value} : EquivJson u v → EquivJson v w → EquivJson u w
  | permObj (l₁ l₂ : List (String × Value)) :
      (l₁.map Prod.fst).Nodup → l₁.Perm l₂ → EquivJson (.obj l₁) (.obj l₂)
  | congArr (xs ys : List Value) (hlen : xs.length = ys.length)
      (h : ∀ (i : Nat) (hx : i < xs.length) (hy : i < ys.length),
        EquivJson (xs.get ⟨i, hx⟩) (ys.get ⟨i, hy⟩)) :
      EquivJson (.arr xs) (.arr ys)
  | congObj (l₁ l₂ : List (String × Value)) (hk : l₁.map Prod.fst = l₂.map Prod.fst)
      (h : ∀ (i : Nat) (h₁ : i < l₁.length) (h₂ : i < l₂.length),
        EquivJson (l₁.get ⟨i, h₁⟩).2 (l₂.get ⟨i, h₂⟩).2) :
      EquivJson (.obj l₁) (.obj l₂)

/-- Modelled from the spec's words for `is_trusted` (§4.5): first an
exact match on the `(name, key)` pair; failing that, a search across all
entries by public key alone returning the name the key is registered
under; otherwise `(false, none)`. -/
def is_trusted_spec (verifiers : Registry) (verifier_name public_key : String) :
    Bool × Option String :=
  if verifiers.any (fun p => p.1 == verifier_name && p.2.public_key == public_key) then
    (true, some verifier_name)
  else
    match verifiers.find? (fun p => p.2.public_key == public_key) with
    | some p => (true, some p.1)
    | none => (false, none)

/-- `get_signable_content` with the possibility of a raised exception
made explicit.  `json.dumps` raises `TypeError` for an unrepresentable
value only when no `default` is given; the source passes `default=str`,
under which every value of the model is representable, so the call
always returns normally. -/
def get_signable_contentE (manifest_data : Record) : Except String String :=
  .ok (get_signable_content manifest_data)

/-! Dictionary access lemmas. -/


theorem comp_set_pred (k : String) (v : Value) :
    ((fun p => p.1 == k) ∘ (fun (p : String × Value) => if p.1 == k then (k, v) else p)) =
      (fun p => p.1 == k) := by
  funext p
  by_cases hp : (p.1 == k) = true
  · simp [Function.comp, hp]
  · simp [Function.comp, hp]

theorem comp_set_pred_ne (k k2 : String) (v : Value) (hne : k ≠ k2) :
    ((fun p => p.1 == k2) ∘ (fun (p : String × Value) => if p.1 == k then (k, v) else p)) =
      (fun p => p.1 == k2) := by
  funext p
  by_cases hp : (p.1 == k) = true
  · have hpk : p.1 = k := eq_of_beq hp
    have h1 : (k == k2) = false := beq_eq_false_iff_ne.mpr hne
    have h2 : (p.1 == k2) = false := by rw [hpk]; exact h1
    simp [Function.comp, hp, h1, h2]
  · simp [Function.comp, hp]

theorem dictGet_dictSet_self (m : Record) (k : String) (v : Value) :
    dictGet (dictSet m k v) k = some v := by
  unfold dictGet dictSet
  by_cases h : m.any (fun p => p.1 == k) = true
  · rw [if_pos h, List.find?_map, comp_set_pred]
    obtain ⟨q, hq, hqk⟩ := List.any_eq_true.mp h
    obtain ⟨r, hr⟩ :=
      Option.isSome_iff_exists.mp ((@List.find?_isSome _ m (fun p => p.1 == k)).mpr ⟨q, hq, hqk⟩)
    have hrk : (r.1 == k) = true := @List.find?_some _ (fun p => p.1 == k) r m hr
    rw [hr]
    simp [eq_of_beq hrk]
  · rw [if_neg h]
    have hf : m.find? (fun p => p.1 == k) = none := by
      rw [List.find?_eq_none]
      intro x hx hxk
      exact h (List.any_eq_true.mpr ⟨x, hx, hxk⟩)
    rw [List.find?_append, hf]
    simp [List.find?]

theorem dictGet_dictSet_ne (m : Record) (k k2 : String) (v : Value) (hne : k ≠ k2) :
    dictGet (dictSet m k v) k2 = dictGet m k2 := by
  unfold dictGet dictSet
  by_cases h : m.any (fun p => p.1 == k) = true
  · rw [if_pos h, List.find?_map, comp_set_pred_ne k k2 v hne]
    cases hr : m.find? (fun p => p.1 == k2) with
    | none => rfl
    | some r =>
      have hrk : (r.1 == k2) = true := @List.find?_some _ (fun p => p.1 == k2) r m hr
      have hrk2 : r.1 = k2 := eq_of_beq hrk
      have hf : r.1 ≠ k := by rw [hrk2]; exact hne.symm
      simp [Function.comp, hf]
  · rw [if_neg h, List.find?_append]
    have hone : List.find? (fun p => p.1 == k2) [(k, v)] = none := by
      simp [List.find?, beq_eq_false_iff_ne.mpr hne]
    rw [hone, Option.or_none]

theorem dictGet_dictRemove_self (m : Record) (k : String) :
    dictGet (dictRemove m k) k = none := by
  unfold dictGet dictRemove
  have hf : (m.filter (fun p => !(p.1 == k))).find? (fun p => p.1 == k) = none := by
    rw [List.find?_eq_none]
    intro x hx
    have hx2 := (List.mem_filter.mp hx).2
    simp only [Bool.not_eq_eq_eq_not, Bool.not_true] at hx2
    simp [hx2]
  rw [hf]
  rfl

theorem dictGet_dictRemove_ne (m : Record) (k k2 : String) (hne : k ≠ k2) :
    dictGet (dictRemove m k) k2 = dictGet m k2 := by
  unfold dictGet dictRemove
  congr 1
  induction m with
  | nil => rfl
  | cons p t ih =>
    cases hp : (p.1 == k) with
    | true =>
      have hpk : p.1 = k := eq_of_beq hp
      have hp2 : (p.1 == k2) = false := beq_eq_false_iff_ne.mpr (by rw [hpk]; exact hne)
      rw [List.filter_cons_of_neg (by simp [hp]), List.find?_cons_of_neg _ (by simp [hp2])]
      exact ih
    | false =>
      rw [List.filter_cons_of_pos (by simp [hp])]
      cases hq : (p.1 == k2) with
      | true =>
        rw [@List.find?_cons_of_pos _ (fun x => x.1 == k2) p _ hq,
            @List.find?_cons_of_pos _ (fun x => x.1 == k2) p _ hq]
      | false =>
        rw [List.find?_cons_of_neg _ (by simp [hq]), List.find?_cons_of_neg _ (by simp [hq])]
        exact ih

/-! Properties of the key order and of `sortByKey`. -/

theorem charListLe_total : ∀ a b : List Char, charListLe a b = true ∨ charListLe b a = true
  | [], _ => Or.inl rfl
  | _ :: _, [] => Or.inr rfl
  | a :: as, b :: bs => by
    by_cases h1 : a.toNat < b.toNat
    · left; simp [charListLe, h1]
    · by_cases h2 : b.toNat < a.toNat
      · right; simp [charListLe, h1, h2]
      · cases charListLe_total as bs with
        | inl h => left; simp [charListLe, h1, h2, h]
        | inr h => right; simp [charListLe, h1, h2, h]

theorem charListLe_trans :
    ∀ a b c : List Char, charListLe a b = true → charListLe b c = true → charListLe a c = true
  | [], _, _, _, _ => rfl
  | _ :: _, [], _, h, _ => by simp [charListLe] at h
  | _ :: _, _ :: _, [], _, h => by simp [charListLe] at h
  | a :: as, b :: bs, c :: cs, h1, h2 => by
    by_cases hab : a.toNat < b.toNat <;> by_cases hba : b.toNat < a.toNat <;>
      by_cases hbc : b.toNat < c.toNat <;> by_cases hcb : c.toNat < b.toNat <;>
      simp [charListLe, hab, hba, hbc, hcb] at h1 h2 ⊢ <;>
      first
        | omega
        | exact ⟨by omega, charListLe_trans as bs cs h1 h2⟩
        | exact Or.inr ⟨by omega, charListLe_trans as bs cs h1 h2⟩

theorem charListLe_antisymm :
    ∀ a b : List Char, charListLe a b = true → charListLe b a = true → a = b
  | [], [], _, _ => rfl
  | [], _ :: _, _, h => by simp [charListLe] at h
  | _ :: _, [], h, _ => by simp [charListLe] at h
  | a :: as, b :: bs, h1, h2 => by
    by_cases hab : a.toNat < b.toNat
    · have hba : ¬ b.toNat < a.toNat := by omega
      simp [charListLe, hab, hba] at h2
    · by_cases hba : b.toNat < a.toNat
      · simp [charListLe, hab, hba] at h1
      · have hc : a = b := by
          apply Char.ext
          apply UInt32.ext
          show a.toNat = b.toNat
          omega
        have h1t : charListLe as bs = true := by simpa [charListLe, hab, hba] using h1
        have h2t : charListLe bs as = true := by simpa [charListLe, hab, hba] using h2
        rw [hc, charListLe_antisymm as bs h1t h2t]

theorem keyLe_total (a b : String) : keyLe a b = true ∨ keyLe b a = true :=
  charListLe_total a.data b.data

theorem keyLe_trans {a b c : String} (h1 : keyLe a b = true) (h2 : keyLe b c = true) :
    keyLe a c = true :=
  charListLe_trans a.data b.data c.data h1 h2

theorem keyLe_antisymm {a b : String} (h1 : keyLe a b = true) (h2 : keyLe b a = true) :
    a = b := by
  have hd := charListLe_antisymm a.data b.data h1 h2
  cases a with
  | mk da => cases b with
    | mk db => cases hd; rfl

theorem insertPair_perm (x : String × String) :
    ∀ l : List (String × String), (insertPair x l).Perm (x :: l)
  | [] => List.Perm.refl _
  | y :: ys => by
    unfold insertPair
    by_cases h : keyLe x.1 y.1 = true
    · rw [if_pos h]
    · rw [if_neg h]
      exact ((insertPair_perm x ys).cons y).trans (List.Perm.swap x y ys)

theorem sortByKey_perm : ∀ l : List (String × String), (sortByKey l).Perm l
  | [] => List.Perm.refl _
  | x :: xs => (insertPair_perm x (sortByKey xs)).trans ((sortByKey_perm xs).cons x)

theorem insertPair_pairwise (x : String × String) :
    ∀ l : List (String × String),
      l.Pairwise (fun p q => keyLe p.1 q.1 = true) →
      (insertPair x l).Pairwise (fun p q => keyLe p.1 q.1 = true)
  | [], _ => by simp [insertPair]
  | y :: ys, h => by
    rw [List.pairwise_cons] at h
    obtain ⟨hy, hys⟩ := h
    unfold insertPair
    by_cases hk : keyLe x.1 y.1 = true
    · rw [if_pos hk, List.pairwise_cons]
      refine ⟨?_, List.pairwise_cons.mpr ⟨hy, hys⟩⟩
      intro q hq
      rcases List.mem_cons.mp hq with rfl | hq2
      · exact hk
      · exact keyLe_trans hk (hy q hq2)
    · rw [if_neg hk, List.pairwise_cons]
      have hyx : keyLe y.1 x.1 = true := (keyLe_total x.1 y.1).resolve_left hk
      refine ⟨?_, insertPair_pairwise x ys hys⟩
      intro q hq
      rcases List.mem_cons.mp ((insertPair_perm x ys).mem_iff.mp hq) with rfl | hq2
      · exact hyx
      · exact hy q hq2

theorem sortByKey_pairwise :
    ∀ l : List (String × String),
      (sortByKey l).Pairwise (fun p q => keyLe p.1 q.1 = true)
  | [] => List.Pairwise.nil
  | x :: xs => insertPair_pairwise x (sortByKey xs) (sortByKey_pairwise xs)

theorem sortByKey_eq_of_perm (l₁ l₂ : List (String × String)) (hp : l₁.Perm l₂)
    (hnd : (l₁.map Prod.fst).Nodup) : sortByKey l₁ = sortByKey l₂ := by
  haveI : IsAntisymm (String × String) (fun p q => keyLe p.1 q.1 = true ∧ p.1 ≠ q.1) :=
    ⟨fun a b hab hba => absurd (keyLe_antisymm hab.1 hba.1) hab.2⟩
  have hps : (sortByKey l₁).Perm (sortByKey l₂) :=
    (sortByKey_perm l₁).trans (hp.trans (sortByKey_perm l₂).symm)
  have hnd2 : (l₂.map Prod.fst).Nodup := ((hp.map Prod.fst).nodup_iff).mp hnd
  have hs1 : (sortByKey l₁).Pairwise (fun p q => keyLe p.1 q.1 = true ∧ p.1 ≠ q.1) := by
    refine (sortByKey_pairwise l₁).and ?_
    have := (((sortByKey_perm l₁).map Prod.fst).nodup_iff).mpr hnd
    exact List.pairwise_map.mp this
  have hs2 : (sortByKey l₂).Pairwise (fun p q => keyLe p.1 q.1 = true ∧ p.1 ≠ q.1) := by
    refine (sortByKey_pairwise l₂).and ?_
    have := (((sortByKey_perm l₂).map Prod.fst).nodup_iff).mpr hnd2
    exact List.pairwise_map.mp this
  exact List.eq_of_perm_of_sorted hps hs1 hs2

theorem intercalate_single (sep a : String) : String.intercalate sep [a] = a := by
  simp [String.intercalate, String.intercalate.go]

theorem band_true {a b : Bool} (h : (a && b) = true) : a = true ∧ b = true := by
  cases a <;> cases b <;> simp_all

/-- C3: verify_attestation_trusted never returns trusted results without
validity: for every registry state and attestation record, whenever the
returned valid flag is false, the trusted flag is false and the matched
verifier name is none — even if the claimed verifier name appears in the
registry. -/
theorem trusted_never_without_valid (verifiers : Registry) (attestation_data : Record)
    (h : (verify_attestation_trusted verifiers attestation_data).1 = false) :
    (verify_attestation_trusted verifiers attestation_data).2.2.1 = false ∧
    (verify_attestation_trusted verifiers attestation_data).2.2.2 = none := by
  unfold verify_attestation_trusted at h ⊢
  cases hv : (verify_attestation attestation_data).1 with
  | false => simp [hv]
  | true => simp [hv] at h

/-- Witness for C3: an unsigned attestation under a nonempty registry
whose only entry carries the claimed verifier name. -/
theorem trusted_never_without_valid_witness :
    (verify_attestation_trusted [("ci", ⟨"K", "t", "d"⟩)]
        [("verifier", Value.str "ci")]).1 = false ∧
    ((verify_attestation_trusted [("ci", ⟨"K", "t", "d"⟩)]
        [("verifier", Value.str "ci")]).2.2.1 = false ∧
     (verify_attestation_trusted [("ci", ⟨"K", "t", "d"⟩)]
        [("verifier", Value.str "ci")]).2.2.2 = none) :=
  ⟨rfl, trusted_never_without_valid [("ci", ⟨"K", "t", "d"⟩)] [("verifier", Value.str "ci")] rfl⟩

/-- C4 counterexample: a registry mutation does not replace the file
atomically — between the truncation performed by `open(path, "w")` and
the write performed by `yaml.dump`, the registry file on disk is empty,
which is neither the complete previous content nor the complete new
content. -/
theorem save_trusted_verifiers_not_atomic :
    ¬ (∀ st ∈ file_states "verifiers:\n  ci: K1\n"
          (save_trusted_verifiers_steps [("ci", ⟨"K2", "t", ""⟩)]),
        st = "verifiers:\n  ci: K1\n" ∨
        st = yaml_dump_verifiers [("ci", ⟨"K2", "t", ""⟩)]) := by
  decide

/-- C4 amended: `save_trusted_verifiers` rewrites the registry file in
place — truncate, then write the whole new serialization — so the
file's contents over time are exactly `[previous, "", new]`: the final
state is the complete new content, but the intermediate state is an
empty truncated file; no temporary file and no rename are involved. -/
theorem save_trusted_verifiers_states (initial : String) (verifiers : Registry) :
    file_states initial (save_trusted_verifiers_steps verifiers) =
      [initial, "", yaml_dump_verifiers verifiers] := by
  simp [file_states, save_trusted_verifiers_steps, List.scanl, applyStep]

/-- C5 counterexample: canonicalization does not fail on a record
holding a value outside the allowed shapes — `json.dumps(...,
default=str)` returns normally, silently rendering the value's `str()`
form into the canonical bytes instead of surfacing an error. -/
theorem canonicalize_error_claim_false :
    ¬ (∀ m : Record, (∃ k s, (k, Value.other s) ∈ m) →
        ∃ e, get_signable_contentE m = .error e) := by
  intro h
  obtain ⟨e, he⟩ := h [("handle", Value.other "RES")] ⟨"handle", "RES", by simp⟩
  rw [get_signable_contentE] at he
  exact Except.noConfusion he

/-- C5 amended: for a record holding a value outside the allowed shapes,
canonicalization does not fail: `default=str` silently substitutes the
value's string representation, rendered as a JSON string, into the
canonical bytes. -/
theorem canonicalize_substitutes_default_str (k s : String)
    (hk : manifestExcludeFields.contains k = false) :
    get_signable_contentE [(k, Value.other s)] =
      .ok ("\x7b" ++ encodeJsonString k ++ ": " ++ encodeJsonString s ++ "\x7d") := by
  unfold get_signable_contentE get_signable_content
  rw [@List.filter_cons_of_pos _ (fun p => !(manifestExcludeFields.contains p.1))
        (k, Value.other s) [] (by simp only [hk, Bool.not_false]), List.filter_nil]
  simp [dumpVal, dumpPairs, sortByKey, insertPair, intercalate_single, String.append_assoc]

/-- Witness for C5 amended: a datetime-like value under a
non-excluded key. -/
theorem canonicalize_substitutes_default_str_witness :
    manifestExcludeFields.contains "created" = false ∧
    get_signable_contentE [("created", Value.other "2024-01-01 00:00:00")] =
      .ok ("\x7b" ++ encodeJsonString "created" ++ ": "
           ++ encodeJsonString "2024-01-01 00:00:00" ++ "\x7d") :=
  ⟨by decide, canonicalize_substitutes_default_str "created" "2024-01-01 00:00:00" (by decide)⟩

/-- C7: `is_trusted_verifier` implements exactly the behaviour the spec
describes — an exact `(name, key)` match first, then a fallback scan of
all entries by public key alone that reports the name the key is
registered under, and `(false, none)` when no stored key matches, even
if the queried name is present with a different key.  The hypothesis is
the dict invariant: registry names are distinct. -/
theorem is_trusted_verifier_matches_spec (verifiers : Registry)
    (verifier_name public_key : String)
    (hnd : (verifiers.map Prod.fst).Nodup) :
    is_trusted_verifier verifiers verifier_name public_key =
      is_trusted_spec verifiers verifier_name public_key := by
  unfold is_trusted_verifier is_trusted_spec trustedByKey
  cases hf : verifiers.find? (fun p => p.1 == verifier_name) with
  | none =>
    have hall := List.find?_eq_none.mp hf
    have hany : (verifiers.any fun q => q.1 == verifier_name && q.2.public_key == public_key)
        = false := by
      rw [List.any_eq_false]
      intro q hq hb
      exact hall q hq (band_true hb).1
    rw [hany]
    simp
  | some p =>
    have hpn : (p.1 == verifier_name) = true :=
      @List.find?_some _ (fun q => q.1 == verifier_name) p verifiers hf
    have hpmem : p ∈ verifiers := List.mem_of_find?_eq_some hf
    by_cases hk : (p.2.public_key == public_key) = true
    · have hany : (verifiers.any fun q => q.1 == verifier_name && q.2.public_key == public_key)
          = true :=
        List.any_eq_true.mpr ⟨p, hpmem, by rw [hpn, hk]; rfl⟩
      rw [hany]
      simp [hk]
    · have hany : (verifiers.any fun q => q.1 == verifier_name && q.2.public_key == public_key)
          = false := by
        rw [List.any_eq_false]
        intro q hq hb
        obtain ⟨hb1, hb2⟩ := band_true hb
        have hqp : q = p :=
          List.inj_on_of_nodup_map hnd hq hpmem ((eq_of_beq hb1).trans (eq_of_beq hpn).symm)
        rw [hqp] at hb2
        exact hk hb2
      rw [hany]
      simp [hk]

/-- Witness for C7: a registry with two distinct names sharing one key,
queried under an unknown name — the key fallback fires. -/
theorem is_trusted_verifier_matches_spec_witness :
    (([("ci", (⟨"K", "t", ""⟩ : VerifierRecord)), ("ci2", ⟨"K", "u", ""⟩)].map Prod.fst).Nodup) ∧
    is_trusted_verifier [("ci", ⟨"K", "t", ""⟩), ("ci2", ⟨"K", "u", ""⟩)] "unknown" "K" =
      is_trusted_spec [("ci", ⟨"K", "t", ""⟩), ("ci2", ⟨"K", "u", ""⟩)] "unknown" "K" :=
  ⟨by decide, is_trusted_verifier_matches_spec _ "unknown" "K" (by decide)⟩

/-- C10: a `signature` or `public_key` field that is present but equal
to the empty string is treated exactly as a missing field by both
manifest and attestation verification — the falsy check `if not
signature:` short-circuits with the same "not signed" / "missing public
key" reason before any cryptographic verification is attempted. -/
theorem empty_trust_fields_treated_as_missing (m a : Record) :
    (verify_manifest_data (dictSet m "signature" (.str "")) =
        (false, some "Manifest is not signed") ∧
     verify_manifest_data (dictRemove m "signature") =
        (false, some "Manifest is not signed")) ∧
    (pyTruthy (dictGet m "signature") = true →
      verify_manifest_data (dictSet m "public_key" (.str "")) =
        (false, some "Missing public key") ∧
      verify_manifest_data (dictRemove m "public_key") =
        (false, some "Missing public key")) ∧
    (verify_attestation (dictSet a "signature" (.str "")) =
        (false, some "Attestation is not signed") ∧
     verify_attestation (dictRemove a "signature") =
        (false, some "Attestation is not signed")) ∧
    (pyTruthy (dictGet a "signature") = true →
      verify_attestation (dictSet a "public_key" (.str "")) =
        (false, some "Attestation missing public_key") ∧
      verify_attestation (dictRemove a "public_key") =
        (false, some "Attestation missing public_key")) := by
  refine ⟨⟨?_, ?_⟩, fun hs => ⟨?_, ?_⟩, ⟨?_, ?_⟩, fun hs => ⟨?_, ?_⟩⟩
  · simp [verify_manifest_data, dictGet_dictSet_self, pyTruthy]
  · simp [verify_manifest_data, dictGet_dictRemove_self, pyTruthy]
  · have h1 := dictGet_dictSet_ne m "public_key" "signature" (.str "") (by decide)
    unfold verify_manifest_data
    simp only [h1, dictGet_dictSet_self, hs]
    simp [pyTruthy]
  · have h1 := dictGet_dictRemove_ne m "public_key" "signature" (by decide)
    unfold verify_manifest_data
    simp only [h1, dictGet_dictRemove_self, hs]
    simp [pyTruthy]
  · simp [verify_attestation, dictGet_dictSet_self, pyTruthy]
  · simp [verify_attestation, dictGet_dictRemove_self, pyTruthy]
  · have h1 := dictGet_dictSet_ne a "public_key" "signature" (.str "") (by decide)
    unfold verify_attestation
    simp only [h1, dictGet_dictSet_self, hs]
    simp [pyTruthy]
  · have h1 := dictGet_dictRemove_ne a "public_key" "signature" (by decide)
    unfold verify_attestation
    simp only [h1, dictGet_dictRemove_self, hs]
    simp [pyTruthy]

/-- Witness for C10 at a concrete signed manifest and attestation. -/
theorem empty_trust_fields_treated_as_missing_witness :
    pyTruthy (dictGet [("name", Value.str "bot"), ("signature", Value.str "SIG")]
      "signature") = true ∧
    (verify_manifest_data (dictSet [("name", Value.str "bot"), ("signature", Value.str "SIG")]
        "public_key" (.str "")) = (false, some "Missing public key") ∧
     verify_manifest_data (dictRemove [("name", Value.str "bot"), ("signature", Value.str "SIG")]
        "public_key") = (false, some "Missing public key")) :=
  ⟨rfl, (empty_trust_fields_treated_as_missing
      [("name", Value.str "bot"), ("signature", Value.str "SIG")] []).2.1 rfl⟩

/-! Base64 and key-primitive lemmas. -/

theorem b64CharCodeOf_lt (n : Nat) : b64CharCodeOf n < 128 := by
  unfold b64CharCodeOf
  split_ifs <;> omega

theorem b64CharCodeOf_ne (n : Nat) : b64CharCodeOf n ≠ 61 := by
  unfold b64CharCodeOf
  split_ifs <;> omega

theorem b64IndexOf_charCode : ∀ n < 64, b64IndexOf (b64CharCodeOf n) = some n := by decide

theorem b64DecEnc : ∀ bs : List Nat, (∀ b ∈ bs, b < 256) →
    b64DecCodes (b64EncCodes bs) = some bs
  | [], _ => rfl
  | [a], h => by
    have ha : a < 256 := h a (List.mem_singleton.mpr rfl)
    unfold b64EncCodes b64DecCodes
    rw [if_pos ⟨rfl, rfl, rfl⟩,
        b64IndexOf_charCode (a / 4) (by omega), b64IndexOf_charCode (a % 4 * 16) (by omega)]
    simp
    omega
  | [a, b], h => by
    have ha : a < 256 := h a (by simp)
    have hb : b < 256 := h b (by simp)
    unfold b64EncCodes b64DecCodes
    rw [if_neg (fun hcon => b64CharCodeOf_ne _ hcon.2.1),
        if_pos ⟨rfl, rfl⟩,
        b64IndexOf_charCode (a / 4) (by omega),
        b64IndexOf_charCode (a % 4 * 16 + b / 16) (by omega),
        b64IndexOf_charCode (b % 16 * 4) (by omega)]
    simp
    omega
  | a :: b :: c :: rest, h => by
    have ha : a < 256 := h a (by simp)
    have hb : b < 256 := h b (by simp)
    have hc : c < 256 := h c (by simp)
    have ih := b64DecEnc rest (fun x hx => h x (by simp [hx]))
    unfold b64EncCodes b64DecCodes
    rw [if_neg (fun hcon => b64CharCodeOf_ne _ hcon.2.2),
        if_neg (fun hcon => b64CharCodeOf_ne _ hcon.2),
        b64IndexOf_charCode (a / 4) (by omega),
        b64IndexOf_charCode (a % 4 * 16 + b / 16) (by omega),
        b64IndexOf_charCode (b % 16 * 4 + c / 64) (by omega),
        b64IndexOf_charCode (c % 64) (by omega), ih]
    simp
    omega

theorem b64EncCodes_lt : ∀ bs : List Nat, ∀ code ∈ b64EncCodes bs, code < 128
  | [], code, h => by simp [b64EncCodes] at h
  | [a], code, h => by
    simp [b64EncCodes] at h
    rcases h with rfl | rfl | rfl | rfl <;> first | exact b64CharCodeOf_lt _ | omega
  | [a, b], code, h => by
    simp [b64EncCodes] at h
    rcases h with rfl | rfl | rfl | rfl <;> first | exact b64CharCodeOf_lt _ | omega
  | a :: b :: c :: rest, code, h => by
    simp [b64EncCodes] at h
    rcases h with rfl | rfl | rfl | rfl | h <;>
      first
        | exact b64CharCodeOf_lt _
        | exact b64EncCodes_lt rest code h

theorem b64EncCodes_eq_nil : ∀ bs : List Nat, b64EncCodes bs = [] → bs = []
  | [], _ => rfl
  | [_], h => by simp [b64EncCodes] at h
  | [_, _], h => by simp [b64EncCodes] at h
  | _ :: _ :: _ :: _, h => by simp [b64EncCodes] at h

theorem char_toNat_ofNat : ∀ m, m < 128 → (Char.ofNat m).toNat = m := by decide

theorem b64decode_b64encode (bs : List Nat) (h : ∀ b ∈ bs, b < 256) :
    b64decodeStr (b64encode bs) = some bs := by
  unfold b64decodeStr b64encode
  have hdata : (String.mk ((b64EncCodes bs).map Char.ofNat)).data
      = (b64EncCodes bs).map Char.ofNat := rfl
  rw [hdata, List.map_map]
  have hmap : (b64EncCodes bs).map (Char.toNat ∘ Char.ofNat) = b64EncCodes bs := by
    simp only [Function.comp_def]
    rw [List.map_congr_left
      (fun code hc => char_toNat_ofNat code (b64EncCodes_lt bs code hc))]
    simp
  rw [hmap]
  exact b64DecEnc bs h

theorem natToBytes_length : ∀ n v : Nat, (natToBytes n v).length = n
  | 0, _ => rfl
  | n + 1, v => by simp [natToBytes, natToBytes_length n (v / 256)]

theorem natToBytes_lt : ∀ n v : Nat, ∀ b ∈ natToBytes n v, b < 256
  | 0, _, b, h => by simp [natToBytes] at h
  | n + 1, v, b, h => by
    simp [natToBytes] at h
    rcases h with rfl | h
    · omega
    · exact natToBytes_lt n (v / 256) b h

theorem pubRawOf_lt (sk : Nat) : ∀ b ∈ pubRawOf sk, b < 256 :=
  natToBytes_lt 32 sk

theorem pubRawOf_length (sk : Nat) : (pubRawOf sk).length = 32 :=
  natToBytes_length 32 sk

theorem edSign_lt (msg : List Nat) (sk : Nat) : ∀ b ∈ edSign msg sk, b < 256 := by
  intro b hb
  unfold edSign pubRawOf at hb
  rcases List.mem_append.mp hb with h | h
  · exact natToBytes_lt 32 sk b h
  · exact natToBytes_lt 32 _ b h

theorem edSign_ne_nil (msg : List Nat) (sk : Nat) : edSign msg sk ≠ [] := by
  unfold edSign pubRawOf
  intro h
  have hl := congrArg List.length h
  simp [natToBytes_length] at hl

theorem b64encode_ne_empty (bs : List Nat) (h : bs ≠ []) : b64encode bs ≠ "" := by
  unfold b64encode
  intro he
  have hd := congrArg String.data he
  have hmap : (b64EncCodes bs).map Char.ofNat = [] := hd
  have henc : b64EncCodes bs = [] := List.map_eq_nil_iff.mp hmap
  exact h (b64EncCodes_eq_nil bs henc)

/-- C2: the signature-verification primitive is fail-closed.  The whole
body runs under a blanket `except Exception: return False`, so the
function is a total Boolean; every malformed input — a signature or
public key that fails base64 decoding, or a key whose decoded bytes are
not exactly 32 long — yields `false` rather than an exception. -/
theorem verify_signature_fail_closed (content signature_b64 public_key_b64 : String)
    (h : b64decodeStr signature_b64 = none ∨ b64decodeStr public_key_b64 = none ∨
         (∀ bs, b64decodeStr public_key_b64 = some bs → bs.length ≠ 32)) :
    verify_signature content signature_b64 public_key_b64 = false := by
  unfold verify_signature
  cases hs : b64decodeStr signature_b64 with
  | none => rfl
  | some sb =>
    cases hp : b64decodeStr public_key_b64 with
    | none => rfl
    | some pb =>
      dsimp only
      rcases h with h | h | h
      · rw [hs] at h; exact Option.noConfusion h
      · rw [hp] at h; exact Option.noConfusion h
      · have hn : fromPublicBytes pb = none := by
          unfold fromPublicBytes
          rw [if_neg (h pb hp)]
        rw [hn]

/-- Witness for C2: a non-base64 signature together with a well-formed
but wrong-length (3-byte) public key. -/
theorem verify_signature_fail_closed_witness :
    (b64decodeStr "!sig" = none ∨ b64decodeStr "AAAA" = none ∨
      (∀ bs, b64decodeStr "AAAA" = some bs → bs.length ≠ 32)) ∧
    verify_signature "content" "!sig" "AAAA" = false :=
  ⟨Or.inl rfl, verify_signature_fail_closed "content" "!sig" "AAAA" (Or.inl rfl)⟩

/-! Lemmas about records extended with the trust fields. -/

theorem dictGet_none_any_false {m : Record} {k : String} (h : dictGet m k = none) :
    m.any (fun p => p.1 == k) = false := by
  unfold dictGet at h
  cases hf : m.find? (fun p => p.1 == k) with
  | none =>
    rw [List.any_eq_false]
    exact List.find?_eq_none.mp hf
  | some r => rw [hf] at h; exact Option.noConfusion h

theorem dictSet_append {m : Record} {k : String} (v : Value) (h : dictGet m k = none) :
    dictSet m k v = m ++ [(k, v)] := by
  have hany := dictGet_none_any_false h
  simp [dictSet, hany]

theorem dictGet_append_single_ne (m : Record) (k k2 : String) (v : Value)
    (hne : (k2 == k) = false) :
    dictGet (m ++ [(k2, v)]) k = dictGet m k := by
  unfold dictGet
  rw [List.find?_append]
  have hone : List.find? (fun p => p.1 == k) [(k2, v)] = none := by
    simp [List.find?, hne]
  rw [hone, Option.or_none]

theorem dictGet_append_single_eq (m : Record) (k : String) (v : Value)
    (h : dictGet m k = none) :
    dictGet (m ++ [(k, v)]) k = some v := by
  unfold dictGet
  rw [List.find?_append]
  cases hf : m.find? (fun p => p.1 == k) with
  | some r =>
    unfold dictGet at h
    rw [hf] at h
    exact Option.noConfusion h
  | none => simp [List.find?]

theorem gsc_append_excluded (m : Record) (ks : Record)
    (hks : ∀ p ∈ ks, manifestExcludeFields.contains p.1 = true) :
    get_signable_content (m ++ ks) = get_signable_content m := by
  unfold get_signable_content
  rw [List.filter_append]
  have hnil : ks.filter (fun p => !(manifestExcludeFields.contains p.1)) = [] := by
    rw [List.filter_eq_nil_iff]
    intro p hp
    rw [hks p hp]
    simp
  rw [hnil, List.append_nil]

/-- C1: signing a well-formed unsigned manifest record (no `signature`,
`public_key` or `signed_at` field) with any private key and verifying
the result yields `(true, none)`: the three trust fields the signing
step appends are excluded from the canonical bytes, so verification
recomputes exactly the signed content. -/
theorem sign_then_verify (m : Record) (sk : Nat) (now : String)
    (h1 : dictGet m "signature" = none) (h2 : dictGet m "public_key" = none)
    (h3 : dictGet m "signed_at" = none) :
    verify_manifest_data (sign_manifest_data m sk now) = (true, none) := by
  have hexp : sign_manifest_data m sk now =
      dictSet (dictSet (dictSet m "signature"
        (Value.str (sign_content (get_signable_content m) sk)))
        "public_key" (Value.str (get_public_key_base64 sk)))
        "signed_at" (Value.str now) := rfl
  rw [hexp]
  set content := get_signable_content m with hcontent
  set sigStr := sign_content content sk with hsig
  set pkStr := get_public_key_base64 sk with hpk
  rw [dictSet_append _ h1]
  have h2b : dictGet (m ++ [("signature", Value.str sigStr)]) "public_key" = none := by
    rw [dictGet_append_single_ne _ _ _ _ (by decide)]
    exact h2
  rw [dictSet_append _ h2b]
  have h3b : dictGet ((m ++ [("signature", Value.str sigStr)])
      ++ [("public_key", Value.str pkStr)]) "signed_at" = none := by
    rw [dictGet_append_single_ne _ _ _ _ (by decide),
        dictGet_append_single_ne _ _ _ _ (by decide)]
    exact h3
  rw [dictSet_append _ h3b]
  set M := ((m ++ [("signature", Value.str sigStr)]) ++ [("public_key", Value.str pkStr)])
      ++ [("signed_at", Value.str now)] with hM
  have hgetSig : dictGet M "signature" = some (Value.str sigStr) := by
    rw [hM, dictGet_append_single_ne _ _ _ _ (by decide),
        dictGet_append_single_ne _ _ _ _ (by decide)]
    exact dictGet_append_single_eq m _ _ h1
  have hgetPk : dictGet M "public_key" = some (Value.str pkStr) := by
    rw [hM, dictGet_append_single_ne _ _ _ _ (by decide)]
    exact dictGet_append_single_eq _ _ _ h2b
  have hsigne : sigStr ≠ "" := by
    rw [hsig]
    exact b64encode_ne_empty _ (edSign_ne_nil _ _)
  have hpkne : pkStr ≠ "" := by
    rw [hpk]
    unfold get_public_key_base64
    apply b64encode_ne_empty
    unfold pubRawOf
    intro hnil
    have hl := congrArg List.length hnil
    simp [natToBytes_length] at hl
  have hgsc : get_signable_content M = content := by
    rw [hM, List.append_assoc, List.append_assoc]
    rw [gsc_append_excluded]
    intro p hp
    simp at hp
    rcases hp with rfl | rfl | rfl <;> rfl
  have hverify : verify_signature content sigStr pkStr = true := by
    rw [hsig, hpk]
    unfold sign_content get_public_key_base64 verify_signature
    rw [b64decode_b64encode _ (edSign_lt _ _)]
    dsimp only
    rw [b64decode_b64encode _ (pubRawOf_lt sk)]
    dsimp only
    have hfp : fromPublicBytes (pubRawOf sk) = some (pubRawOf sk) := by
      unfold fromPublicBytes
      rw [if_pos (pubRawOf_length sk)]
    rw [hfp]
    dsimp only
    unfold edVerify edSign
    exact beq_self_eq_true _
  have ht1 : pyTruthy (some (Value.str sigStr)) = true := by
    simp [pyTruthy, hsigne]
  have ht2 : pyTruthy (some (Value.str pkStr)) = true := by
    simp [pyTruthy, hpkne]
  unfold verify_manifest_data
  rw [hgetSig, hgetPk, hgsc]
  simp only [ht1, ht2, Option.getD_some, Bool.not_true]
  simp [verify_signature_value, hverify]

/-- Witness for C1: a one-field manifest signed with the key seed 5. -/
theorem sign_then_verify_witness :
    (dictGet [("name", Value.str "bot")] "signature" = none ∧
     dictGet [("name", Value.str "bot")] "public_key" = none ∧
     dictGet [("name", Value.str "bot")] "signed_at" = none) ∧
    verify_manifest_data
      (sign_manifest_data [("name", Value.str "bot")] 5 "2024-01-01T00:00:00+00:00") =
      (true, none) :=
  ⟨⟨rfl, rfl, rfl⟩,
   sign_then_verify [("name", Value.str "bot")] 5 "2024-01-01T00:00:00+00:00" rfl rfl rfl⟩

/-! Per-entry evaluation of `verify_all_attestations`. -/

theorem mapM_verify_enumFrom : ∀ (l : List Record) (n : Nat),
    ((l.map Value.obj).enumFrom n).mapM
        (fun p => (verify_attestation_value p.2).map (fun r => (p.1, r.1, r.2))) =
      some ((l.enumFrom n).map
        (fun p => (p.1, (verify_attestation p.2).1, (verify_attestation p.2).2)))
  | [], _ => rfl
  | a :: t, n => by
    rw [List.map_cons,
        show List.enumFrom n (Value.obj a :: List.map Value.obj t)
          = (n, Value.obj a) :: List.enumFrom (n + 1) (List.map Value.obj t) from rfl,
        List.mapM_cons, mapM_verify_enumFrom t (n + 1)]
    simp [verify_attestation_value]

theorem verify_all_eq (m : Record) (l : List Record)
    (hm : dictGet m "attestations" = some (.arr (l.map Value.obj))) :
    verify_all_attestations m =
      some (l.enum.map
        (fun p => (p.1, (verify_attestation p.2).1, (verify_attestation p.2).2))) := by
  unfold verify_all_attestations
  rw [hm]
  simp only [Option.getD_some]
  exact mapM_verify_enumFrom l 0

theorem verify_all_get (m : Record) (l : List Record)
    (hm : dictGet m "attestations" = some (.arr (l.map Value.obj)))
    (i : Nat) (hi : i < l.length) :
    (verify_all_attestations m).bind (fun r => r[i]?) =
      some (i, (verify_attestation (l.get ⟨i, hi⟩)).1,
            (verify_attestation (l.get ⟨i, hi⟩)).2) := by
  rw [verify_all_eq m l hm]
  show (l.enum.map
      (fun p => (p.1, (verify_attestation p.2).1, (verify_attestation p.2).2)))[i]? = _
  rw [List.getElem?_map, show l.enum = l.enumFrom 0 from rfl, List.getElem?_enumFrom,
      List.getElem?_eq_getElem hi]
  simp

/-- C8: `verify_all_attestations` evaluates every attestation
independently and positionally.  For a manifest whose `attestations`
field holds the sequence `l` of attestation records: the result is the
positional list of `verify_attestation` outcomes; it has exactly one
entry `(i, valid, reason)` per index, computed from `l[i]` alone; and
any second manifest agreeing with the first at position `i` receives an
identical `i`-th result, however its other attestations are tampered
with or replaced. -/
theorem verify_all_attestations_independent (m : Record) (l : List Record)
    (hm : dictGet m "attestations" = some (.arr (l.map Value.obj))) :
    verify_all_attestations m =
      some (l.enum.map
        (fun p => (p.1, (verify_attestation p.2).1, (verify_attestation p.2).2))) ∧
    (∀ res, verify_all_attestations m = some res →
      res.length = l.length ∧
      ∀ i (hi : i < l.length),
        res[i]? = some (i, (verify_attestation (l.get ⟨i, hi⟩)).1,
                        (verify_attestation (l.get ⟨i, hi⟩)).2)) ∧
    (∀ (m2 : Record) (l2 : List Record),
      dictGet m2 "attestations" = some (.arr (l2.map Value.obj)) →
      ∀ i (hi : i < l.length) (hi2 : i < l2.length),
        l.get ⟨i, hi⟩ = l2.get ⟨i, hi2⟩ →
        (verify_all_attestations m).bind (fun r => r[i]?) =
          (verify_all_attestations m2).bind (fun r => r[i]?)) := by
  refine ⟨verify_all_eq m l hm, ?_, ?_⟩
  · intro res hres
    rw [verify_all_eq m l hm] at hres
    obtain rfl : res = l.enum.map
        (fun p => (p.1, (verify_attestation p.2).1, (verify_attestation p.2).2)) :=
      (Option.some_inj.mp hres).symm
    constructor
    · simp [List.enum_length]
    · intro i hi
      have := verify_all_get m l hm i hi
      rw [verify_all_eq m l hm] at this
      exact this
  · intro m2 l2 hm2 i hi hi2 hagree
    rw [verify_all_get m l hm i hi, verify_all_get m2 l2 hm2 i hi2, hagree]

/-- Witness for C8: a manifest carrying one unsigned and one
type-only attestation. -/
theorem verify_all_attestations_independent_witness :
    dictGet [("attestations",
        Value.arr (([[], [("type", Value.str "build")]] : List Record).map Value.obj))]
      "attestations"
      = some (.arr (([[], [("type", Value.str "build")]] : List Record).map Value.obj)) ∧
    verify_all_attestations [("attestations",
        Value.arr (([[], [("type", Value.str "build")]] : List Record).map Value.obj))] =
      some (([[], [("type", Value.str "build")]] : List Record).enum.map
        (fun p => (p.1, (verify_attestation p.2).1, (verify_attestation p.2).2))) :=
  ⟨rfl, (verify_all_attestations_independent
    [("attestations",
        Value.arr (([[], [("type", Value.str "build")]] : List Record).map Value.obj))]
    [[], [("type", Value.str "build")]] rfl).1⟩

/-! Splitting lemmas for agent-ID parsing. -/

theorem splitFirst_eq_none_iff (sep : Char) :
    ∀ l : List Char, splitFirst sep l = none ↔ sep ∉ l
  | [] => by simp [splitFirst]
  | c :: cs => by
    by_cases hc : c = sep
    · subst hc
      simp [splitFirst]
    · rw [splitFirst, if_neg hc]
      constructor
      · intro h hm
        rcases List.mem_cons.mp hm with h2 | h2
        · exact hc h2.symm
        · cases hf : splitFirst sep cs with
          | none => exact ((splitFirst_eq_none_iff sep cs).mp hf) h2
          | some q => rw [hf] at h; exact Option.noConfusion h
      · intro hm
        have : splitFirst sep cs = none :=
          (splitFirst_eq_none_iff sep cs).mpr (fun h2 => hm (List.mem_cons_of_mem c h2))
        rw [this]
        rfl

theorem splitFirst_append (sep : Char) (x y : List Char) (hx : sep ∉ x) :
    splitFirst sep (x ++ sep :: y) = some (x, y) := by
  induction x with
  | nil => simp [splitFirst]
  | cons c cs ih =>
    have hc : c ≠ sep := fun h => hx (h ▸ List.mem_cons_self c cs)
    rw [List.cons_append, splitFirst, if_neg hc,
        ih (fun h2 => hx (List.mem_cons_of_mem c h2))]
    rfl

theorem splitFirst_eq_some (sep : Char) :
    ∀ (l : List Char) (p : List Char × List Char), splitFirst sep l = some p →
      l = p.1 ++ sep :: p.2 ∧ sep ∉ p.1
  | [], p, h => Option.noConfusion h
  | c :: cs, p, h => by
    by_cases hc : c = sep
    · subst hc
      rw [splitFirst, if_pos rfl] at h
      obtain rfl := Option.some_inj.mp h
      simp
    · rw [splitFirst, if_neg hc] at h
      cases hf : splitFirst sep cs with
      | none => rw [hf] at h; exact Option.noConfusion h
      | some q =>
        rw [hf] at h
        simp only [Option.map_some'] at h
        obtain rfl := Option.some_inj.mp h
        obtain ⟨hl, hnm⟩ := splitFirst_eq_some sep cs q hf
        constructor
        · rw [List.cons_append, ← hl]
        · intro hm
          rcases List.mem_cons.mp hm with h2 | h2
          · exact hc h2.symm
          · exact hnm h2

theorem splitLast_eq_none_iff (sep : Char) (l : List Char) :
    splitLast sep l = none ↔ sep ∉ l := by
  unfold splitLast
  cases hf : splitFirst sep l.reverse with
  | none =>
    have hrev := (splitFirst_eq_none_iff sep l.reverse).mp hf
    constructor
    · intro _ hm
      exact hrev (List.mem_reverse.mpr hm)
    · intro _
      rfl
  | some q =>
    constructor
    · intro h
      exact Option.noConfusion h
    · intro hm
      have : splitFirst sep l.reverse = none :=
        (splitFirst_eq_none_iff sep l.reverse).mpr (fun h2 => hm (List.mem_reverse.mp h2))
      rw [this] at hf
      exact Option.noConfusion hf

theorem splitLast_append (sep : Char) (x y : List Char) (hy : sep ∉ y) :
    splitLast sep (x ++ sep :: y) = some (x, y) := by
  unfold splitLast
  have hrev : (x ++ sep :: y).reverse = y.reverse ++ sep :: x.reverse := by
    rw [List.reverse_append]
    simp
  rw [hrev, splitFirst_append sep _ _ (fun hm => hy (List.mem_reverse.mp hm))]
  simp

theorem splitLast_eq_some (sep : Char) (l : List Char) (p : List Char × List Char)
    (h : splitLast sep l = some p) : l = p.1 ++ sep :: p.2 ∧ sep ∉ p.2 := by
  unfold splitLast at h
  cases hf : splitFirst sep l.reverse with
  | none => rw [hf] at h; exact Option.noConfusion h
  | some q =>
    rw [hf] at h
    obtain rfl := Option.some_inj.mp h
    obtain ⟨hl, hnm⟩ := splitFirst_eq_some sep l.reverse q hf
    constructor
    · have hrr := congrArg List.reverse hl
      rw [List.reverse_reverse] at hrr
      rw [hrr, List.reverse_append]
      simp
    · intro hm
      exact hnm (by simpa using hm)

theorem parse_shape (rest : List Char) :
    parse_agent_id (String.mk ('a' :: 'h' :: ':' :: rest)) =
      match splitLast '+' rest with
      | some rf =>
          (match splitFirst '/' rf.1 with
           | some an => .ok ⟨String.mk an.1, String.mk an.2, some (String.mk rf.2)⟩
           | none => .error ("Invalid agent ID format: "
               ++ String.mk ('a' :: 'h' :: ':' :: rest)))
      | none =>
          (match splitFirst '/' rest with
           | some an => .ok ⟨String.mk an.1, String.mk an.2, none⟩
           | none => .error ("Invalid agent ID format: "
               ++ String.mk ('a' :: 'h' :: ':' :: rest))) := rfl

theorem generate_data_none (a n : String) :
    generate_agent_id a n none = String.mk ('a' :: 'h' :: ':' :: (a.data ++ '/' :: n.data)) := by
  unfold generate_agent_id
  apply congrArg String.mk ∘ Eq.trans rfl
  show ("ah:" ++ a ++ "/" ++ n).data = 'a' :: 'h' :: ':' :: (a.data ++ '/' :: n.data)
  simp [String.data_append]

theorem generate_data_some (a n s : String) (hs : s ≠ "") :
    generate_agent_id a n (some s) =
      String.mk ('a' :: 'h' :: ':' :: ((a.data ++ '/' :: n.data) ++ '+' :: s.data)) := by
  unfold generate_agent_id
  dsimp only
  rw [if_pos (bne_iff_ne.mpr hs)]
  apply congrArg String.mk ∘ Eq.trans rfl
  show ("ah:" ++ a ++ "/" ++ n ++ "+" ++ s).data
      = 'a' :: 'h' :: ':' :: ((a.data ++ '/' :: n.data) ++ '+' :: s.data)
  simp [String.data_append]

/-- C9 counterexample: `parse_agent_id` is not the inverse of
`generate_agent_id` for every author containing no `+` — an author
containing `/` is mis-split, because parsing takes the author up to the
first slash. -/
theorem parse_generate_not_inverse :
    parse_agent_id (generate_agent_id "a/b" "c" none) ≠
      Except.ok ⟨"a/b", "c", none⟩ := by
  intro h
  rw [show parse_agent_id (generate_agent_id "a/b" "c" none)
      = Except.ok ⟨"a", "b/c", none⟩ from rfl] at h
  simp at h

/-- C9 amended: `generate_agent_id` formats `ah:<author>/<name>` with
`+<fork>` appended for a truthy (present, non-empty) fork name, and
`parse_agent_id` inverts it whenever the author contains neither `+`
nor `/`, the name contains no `+`, and the fork name is absent or
non-empty without `+` (at most one `+` is split, from the right);
parsing fails with a format error whenever the `ah:` prefix is missing
or no `/` separator is present. -/
theorem parse_generate_roundtrip :
    (∀ (a n : String) (f : Option String),
      '+' ∉ a.data → '/' ∉ a.data → '+' ∉ n.data →
      (f = none ∨ ∃ s, f = some s ∧ s ≠ "" ∧ '+' ∉ s.data) →
      parse_agent_id (generate_agent_id a n f) = .ok ⟨a, n, f⟩) ∧
    (∀ s : String, s.data.take 3 ≠ "ah:".data →
      ∃ msg, parse_agent_id s = .error msg) ∧
    (∀ s : String, '/' ∉ s.data → ∃ msg, parse_agent_id s = .error msg) := by
  refine ⟨?_, ?_, ?_⟩
  · intro a n f ha1 ha2 hn hf
    have hslash : splitFirst '/' (a.data ++ '/' :: n.data) = some (a.data, n.data) :=
      splitFirst_append '/' a.data n.data ha2
    rcases hf with rfl | ⟨s, rfl, hs, hsp⟩
    · rw [generate_data_none, parse_shape]
      have hplus : '+' ∉ a.data ++ '/' :: n.data := by
        intro hm
        rcases List.mem_append.mp hm with h2 | h2
        · exact ha1 h2
        · rcases List.mem_cons.mp h2 with h3 | h3
          · exact absurd h3 (by decide)
          · exact hn h3
      rw [(splitLast_eq_none_iff '+' _).mpr hplus, hslash]
    · rw [generate_data_some a n s hs, parse_shape, splitLast_append '+' _ _ hsp]
      dsimp only
      rw [hslash]
  · intro s hpre
    simp only [parse_agent_id]
    rw [if_neg hpre]
    exact ⟨_, rfl⟩
  · intro s hsl
    simp only [parse_agent_id]
    by_cases hpre : s.data.take 3 = "ah:".data
    · rw [if_pos hpre]
      have hsub : ∀ x ∈ s.data.drop 3, x ∈ s.data := fun x hx => List.drop_subset _ _ hx
      cases hl : splitLast '+' (s.data.drop 3) with
      | none =>
        have hnone : splitFirst '/' (s.data.drop 3) = none :=
          (splitFirst_eq_none_iff '/' _).mpr (fun hm => hsl (hsub _ hm))
        rw [hnone]
        exact ⟨_, rfl⟩
      | some rf =>
        obtain ⟨heq, -⟩ := splitLast_eq_some '+' _ rf hl
        have hnone : splitFirst '/' rf.1 = none := by
          apply (splitFirst_eq_none_iff '/' _).mpr
          intro hm
          apply hsl
          apply hsub
          rw [heq]
          exact List.mem_append.mpr (Or.inl hm)
        dsimp only
        rw [hnone]
        exact ⟨_, rfl⟩
    · rw [if_neg hpre]
      exact ⟨_, rfl⟩

/-- Witness for C9 amended: a forked ID round-trips, a prefix-less
string and a slash-less string fail. -/
theorem parse_generate_roundtrip_witness :
    parse_agent_id (generate_agent_id "alice" "bot" (some "sec")) =
      .ok ⟨"alice", "bot", some "sec"⟩ ∧
    (∃ msg, parse_agent_id "alice/bot" = .error msg) ∧
    (∃ msg, parse_agent_id "ah:alicebot" = .error msg) :=
  ⟨parse_generate_roundtrip.1 "alice" "bot" (some "sec") (by decide) (by decide) (by decide)
      (Or.inr ⟨"sec", rfl, by decide, by decide⟩),
   parse_generate_roundtrip.2.1 "alice/bot" (by decide),
   parse_generate_roundtrip.2.2 "ah:alicebot" (by decide)⟩

/-! Canonicalization is invariant under key reordering (claim C6). -/

theorem dumpPairs_eq_map : ∀ l : List (String × Value),
    dumpPairs l = l.map (fun p => (p.1, encodeJsonString p.1 ++ ": " ++ dumpVal p.2))
  | [] => rfl
  | (k, v) :: l => by rw [dumpPairs, dumpPairs_eq_map l, List.map_cons]

theorem dumpPairs_map_fst (l : List (String × Value)) :
    (dumpPairs l).map Prod.fst = l.map Prod.fst := by
  rw [dumpPairs_eq_map, List.map_map]
  exact List.map_congr_left (fun a _ => rfl)

theorem dumpList_congr : ∀ xs ys : List Value, xs.length = ys.length →
    (∀ i (hx : i < xs.length) (hy : i < ys.length),
      dumpVal (xs.get ⟨i, hx⟩) = dumpVal (ys.get ⟨i, hy⟩)) →
    dumpList xs = dumpList ys
  | [], [], _, _ => rfl
  | [], _ :: _, h, _ => by simp at h
  | _ :: _, [], h, _ => by simp at h
  | x :: xs, y :: ys, h, hp => by
    rw [dumpList, dumpList]
    exact congrArg₂ List.cons (hp 0 (by simp) (by simp))
      (dumpList_congr xs ys (by simpa using h)
        (fun i hx hy => hp (i + 1) (by simp only [List.length_cons]; omega)
          (by simp only [List.length_cons]; omega)))

theorem dumpPairs_congr : ∀ l₁ l₂ : List (String × Value),
    l₁.map Prod.fst = l₂.map Prod.fst →
    (∀ i (h1 : i < l₁.length) (h2 : i < l₂.length),
      dumpVal (l₁.get ⟨i, h1⟩).2 = dumpVal (l₂.get ⟨i, h2⟩).2) →
    dumpPairs l₁ = dumpPairs l₂
  | [], [], _, _ => rfl
  | [], _ :: _, h, _ => by simp at h
  | _ :: _, [], h, _ => by simp at h
  | (k1, v1) :: l₁, (k2, v2) :: l₂, h, hp => by
    simp only [List.map_cons, List.cons.injEq] at h
    rw [dumpPairs, dumpPairs]
    refine congrArg₂ List.cons ?_
      (dumpPairs_congr l₁ l₂ h.2 (fun i h1 h2 => hp (i + 1)
        (by simp only [List.length_cons]; omega) (by simp only [List.length_cons]; omega)))
    have hv : dumpVal v1 = dumpVal v2 := hp 0 (by simp) (by simp)
    rw [h.1, hv]

theorem dumpVal_equiv {v w : Value} (h : EquivJson v w) : dumpVal v = dumpVal w := by
  induction h with
  | refl v => rfl
  | symm _ ih => exact ih.symm
  | trans _ _ ih1 ih2 => exact ih1.trans ih2
  | permObj l₁ l₂ hnd hp =>
    simp only [dumpVal]
    have hsort : sortByKey (dumpPairs l₁) = sortByKey (dumpPairs l₂) := by
      apply sortByKey_eq_of_perm
      · rw [dumpPairs_eq_map l₁, dumpPairs_eq_map l₂]
        exact hp.map _
      · rw [dumpPairs_map_fst]
        exact hnd
    rw [hsort]
  | congArr xs ys hlen hptr ih =>
    simp only [dumpVal]
    rw [dumpList_congr xs ys hlen ih]
  | congObj l₁ l₂ hk hptr ih =>
    simp only [dumpVal]
    rw [dumpPairs_congr l₁ l₂ hk ih]

theorem equiv_obj_shape : ∀ {v w : Value}, EquivJson v w →
    ((∃ l, v = Value.obj l) ↔ (∃ l, w = Value.obj l)) := by
  intro v w h
  induction h with
  | refl v => exact Iff.rfl
  | symm _ ih => exact ih.symm
  | trans _ _ ih1 ih2 => exact ih1.trans ih2
  | permObj l₁ l₂ _ _ => exact ⟨fun _ => ⟨l₂, rfl⟩, fun _ => ⟨l₁, rfl⟩⟩
  | congArr xs ys _ _ _ =>
    constructor <;> (rintro ⟨l, hl⟩; exact absurd hl (by simp))
  | congObj l₁ l₂ _ _ _ => exact ⟨fun _ => ⟨l₂, rfl⟩, fun _ => ⟨l₁, rfl⟩⟩

theorem filter_congObj (pred : String × Value → Bool)
    (hpred : ∀ (k : String) (v v2 : Value), pred (k, v) = pred (k, v2)) :
    ∀ l₁ l₂ : List (String × Value), l₁.map Prod.fst = l₂.map Prod.fst →
    (∀ i (h1 : i < l₁.length) (h2 : i < l₂.length),
      EquivJson (l₁.get ⟨i, h1⟩).2 (l₂.get ⟨i, h2⟩).2) →
    (l₁.filter pred).map Prod.fst = (l₂.filter pred).map Prod.fst ∧
    (∀ i (h1 : i < (l₁.filter pred).length) (h2 : i < (l₂.filter pred).length),
      EquivJson ((l₁.filter pred).get ⟨i, h1⟩).2 ((l₂.filter pred).get ⟨i, h2⟩).2)
  | [], [], _, _ => ⟨rfl, fun i h1 _ => by simp at h1⟩
  | [], _ :: _, h, _ => by simp at h
  | _ :: _, [], h, _ => by simp at h
  | (k1, v1) :: l₁, (k2, v2) :: l₂, h, hp => by
    simp only [List.map_cons, List.cons.injEq] at h
    have hk : k1 = k2 := h.1
    obtain ⟨ihk, ihp⟩ := filter_congObj pred hpred l₁ l₂ h.2
      (fun i h1 h2 => hp (i + 1) (by simp only [List.length_cons]; omega)
        (by simp only [List.length_cons]; omega))
    have hpe : pred (k1, v1) = pred (k2, v2) := by
      rw [hpred k1 v1 v2, hk]
    cases hchoice : pred (k1, v1) with
    | false =>
      rw [List.filter_cons_of_neg (by simp [hchoice]),
          List.filter_cons_of_neg (by simp [hpe ▸ hchoice])]
      exact ⟨ihk, ihp⟩
    | true =>
      rw [List.filter_cons_of_pos hchoice,
          List.filter_cons_of_pos (hpe ▸ hchoice)]
      refine ⟨by simp [hk, ihk], ?_⟩
      intro i h1 h2
      match i with
      | 0 => exact hp 0 (by simp) (by simp)
      | j + 1 => exact ihp j (by simpa using h1) (by simpa using h2)

theorem equiv_filter_obj (pred : String × Value → Bool)
    (hpred : ∀ (k : String) (v v2 : Value), pred (k, v) = pred (k, v2)) :
    ∀ {v w : Value}, EquivJson v w →
    ∀ l₁ l₂, v = .obj l₁ → w = .obj l₂ →
    EquivJson (.obj (l₁.filter pred)) (.obj (l₂.filter pred)) := by
  intro v w h
  induction h with
  | refl v =>
    intro l₁ l₂ h1 h2
    subst h1
    obtain rfl := Value.obj.inj h2
    exact EquivJson.refl _
  | symm _ ih =>
    intro l₁ l₂ h1 h2
    exact (ih l₂ l₁ h2 h1).symm
  | trans huv _ ih1 ih2 =>
    intro l₁ l₂ h1 h2
    obtain ⟨lm, hm⟩ := (equiv_obj_shape huv).mp ⟨l₁, h1⟩
    exact (ih1 l₁ lm h1 hm).trans (ih2 lm l₂ hm h2)
  | permObj la lb hnd hperm =>
    intro l₁ l₂ h1 h2
    obtain rfl := Value.obj.inj h1
    obtain rfl := Value.obj.inj h2
    apply EquivJson.permObj
    · exact hnd.sublist ((List.filter_sublist la).map Prod.fst)
    · exact hperm.filter pred
  | congArr xs ys _ _ _ =>
    intro l₁ l₂ h1 _
    exact absurd h1 (by simp)
  | congObj la lb hk hptr _ =>
    intro l₁ l₂ h1 h2
    obtain rfl := Value.obj.inj h1
    obtain rfl := Value.obj.inj h2
    obtain ⟨hkf, hpf⟩ := filter_congObj pred hpred la lb hk hptr
    exact EquivJson.congObj _ _ hkf hpf

/-- C6: canonicalization depends only on the semantic content of the
record — for records with identical field sets and values, differing
only in the insertion order of mapping keys at any nesting depth (the
`EquivJson` relation), `get_signable_content` produces byte-identical
output. -/
theorem canonicalize_key_order_invariant (m₁ m₂ : Record)
    (h : EquivJson (.obj m₁) (.obj m₂)) :
    get_signable_content m₁ = get_signable_content m₂ := by
  unfold get_signable_content
  apply dumpVal_equiv
  exact equiv_filter_obj (fun p => !(manifestExcludeFields.contains p.1))
    (fun k v v2 => rfl) h m₁ m₂ rfl rfl

/-- Witness for C6: two two-field records differing only in key order. -/
theorem canonicalize_key_order_invariant_witness :
    EquivJson (.obj [("b", Value.num 1), ("a", Value.str "x")])
      (.obj [("a", Value.str "x"), ("b", Value.num 1)]) ∧
    get_signable_content [("b", Value.num 1), ("a", Value.str "x")] =
      get_signable_content [("a", Value.str "x"), ("b", Value.num 1)] := by
  have he : EquivJson (.obj [("b", Value.num 1), ("a", Value.str "x")])
      (.obj [("a", Value.str "x"), ("b", Value.num 1)]) :=
    EquivJson.permObj _ _ (by decide) (List.Perm.swap _ _ _)
  exact ⟨he, canonicalize_key_order_invariant _ _ he⟩
